import Mathlib

/-
Shallow embedding of the go-nlp counter package (src/counter/counter.go).

Modelling decisions:
- float64 is modelled by the rationals; every claim settled here is about
  control flow and exact equality tests, not about rounding.
- The Go map[string]float64 is modelled by an association list whose keys
  are pairwise distinct (Counter.WF, always true of a real Go map), iterated
  in list order.  Go randomises map iteration order; the list order is one of
  the orders a Go map run can produce, so any behaviour exhibited on it is a
  behaviour of the program.
- The pre-Go-1 statement values[k] = v, false deletes key k (mapDelete);
  values[k] = v inserts or updates (mapInsert); v, ok := values[k] is
  mapLookup.
- The key-merge channel is modelled by the list of keys it emits, in order.
-/

namespace counter

/-- Model of the Go map read v, ok := m[k]: first entry with key k, if any. -/
def mapLookup : List (String × ℚ) → String → Option ℚ
  | [], _ => none
  | (k0, v0) :: t, k => if k0 = k then some v0 else mapLookup t k

/-- Model of the Go map write m[k] = v: update the entry for k in place if
present, otherwise add a fresh entry. -/
def mapInsert : List (String × ℚ) → String → ℚ → List (String × ℚ)
  | [], k, v => [(k, v)]
  | (k0, v0) :: t, k, v => if k0 = k then (k0, v) :: t else (k0, v0) :: mapInsert t k v

/-- Model of the pre-Go-1 map delete m[k] = v, false: drop the entry for k. -/
def mapDelete : List (String × ℚ) → String → List (String × ℚ)
  | [], _ => []
  | (k0, v0) :: t, k => if k0 = k then t else (k0, v0) :: mapDelete t k

/-- type Counter struct: values map[string]float64; Base float64. -/
structure Counter where
  values : List (String × ℚ)
  Base : ℚ

/-- Representation invariant of the Go map: keys are pairwise distinct. -/
def Counter.WF (c : Counter) : Prop := (c.values.map Prod.fst).Nodup

/-- func New(base float64): empty storage, given base. -/
def New (base : ℚ) : Counter := ⟨[], base⟩

/-- func (c *Counter) Get(k string): the stored value if present, else Base. -/
def Counter.Get (c : Counter) (k : String) : ℚ :=
  match mapLookup c.values k with
  | some v => v
  | none => c.Base

/-- func (c *Counter) Set(k string, v float64).  When v == c.Base the code
deletes the key, but there is no early return or else branch, so the
unconditional c.values[k] = v that follows stores the entry again either
way: the delete is dead code and base-valued entries do end up in storage. -/
def Counter.Set (c : Counter) (k : String) (v : ℚ) : Counter :=
  { c with values := mapInsert (if v = c.Base then mapDelete c.values k else c.values) k v }

/-- func (c *Counter) Incr(k string). -/
def Counter.Incr (c : Counter) (k : String) : Counter :=
  c.Set k (c.Get k + 1)

/-- func (c *Counter) Keys(): every stored key whose value differs from Base
(entries whose value equals Base are skipped), in iteration order. -/
def Counter.Keys (c : Counter) : List String :=
  (c.values.filter (fun kv => kv.2 ≠ c.Base)).map Prod.fst

/-- func mergeKeys(a, b []string): the sequence of keys the channel emits.
The seen set is populated only while draining a (the second loop emits
without recording), so the b loop filters on membership in a alone, and a
duplicate inside b itself is emitted twice. -/
def mergeKeys (a b : List String) : List String :=
  a ++ b.filter (fun k => ¬ k ∈ a)

/-- func operate(a, b *Counter, op, keys): the pure form.  A fresh counter
with base op(a.Base, b.Base); every merged key k is Set to
op(a.Get(k), b.Get(k)).  Only reads a and b. -/
def operate (a b : Counter) (op : ℚ → ℚ → ℚ)
    (keys : List String → List String → List String) : Counter :=
  (keys a.Keys b.Keys).foldl (fun r k => r.Set k (op (a.Get k) (b.Get k)))
    (New (op a.Base b.Base))

/-- func Add(a, b *Counter). -/
def Add (a b : Counter) : Counter := operate a b (fun x y => x + y) mergeKeys

/-- func Subtract(a, b *Counter). -/
def Subtract (a b : Counter) : Counter := operate a b (fun x y => x - y) mergeKeys

/-- func Multiply(a, b *Counter). -/
def Multiply (a b : Counter) : Counter := operate a b (fun x y => x * y) mergeKeys

/-- func Divide(a, b *Counter). -/
def Divide (a b : Counter) : Counter := operate a b (fun x y => x / y) mergeKeys

/-- func (a *Counter) operate(b, op, keys): the in-place form.  The code
assigns a.Base = op(a.Base, b.Base) first; the key enumeration (a.Keys
filters against the already-updated base) and every a.Get inside the loop
then observe the updated base.  The final state of a is returned. -/
def Counter.operate (a b : Counter) (op : ℚ → ℚ → ℚ)
    (keys : List String → List String → List String) : Counter :=
  let a1 : Counter := { a with Base := op a.Base b.Base }
  (keys a1.Keys b.Keys).foldl (fun r k => r.Set k (op (r.Get k) (b.Get k))) a1

/-- func (c *Counter) Add(o *Counter): in-place. -/
def Counter.Add (c o : Counter) : Counter := c.operate o (fun x y => x + y) mergeKeys

/-- func (c *Counter) Subtract(o *Counter): in-place. -/
def Counter.Subtract (c o : Counter) : Counter := c.operate o (fun x y => x - y) mergeKeys

/-- func (c *Counter) Multiply(o *Counter): in-place. -/
def Counter.Multiply (c o : Counter) : Counter := c.operate o (fun x y => x * y) mergeKeys

/-- func (c *Counter) Divide(o *Counter): in-place. -/
def Counter.Divide (c o : Counter) : Counter := c.operate o (fun x y => x / y) mergeKeys

/-- func (c *Counter) Apply(op): first c.Base = op(nil, c.Base), then every
stored entry (k, v) is rewritten via Set with op(&k, v).  The nil key
pointer of the Go code is Option.none, a present key is some k.  The loop
ranges over the entries present when it starts and touches each once. -/
def Counter.Apply (c : Counter) (op : Option String → ℚ → ℚ) : Counter :=
  let c1 : Counter := { c with Base := op none c.Base }
  c1.values.foldl (fun r kv => r.Set kv.1 (op (some kv.1) kv.2)) c1

/-- func (c *Counter) reduce(base float64, op): fold op over the stored
entries only, seeded with the given base argument. -/
def Counter.reduce (c : Counter) (base : ℚ) (op : ℚ → ℚ → ℚ) : ℚ :=
  c.values.foldl (fun val kv => op val kv.2) base

/-- func (c *Counter) ArgMax().  The closure state is the pair
(maxKey is non-nil, maxVal).  Apply first runs op(nil, Base): maxKey == nil
holds there, so maxKey is assigned the nil key argument (staying nil) and
maxVal becomes Base — hence the entry fold starts at (false, c.Base).  Inside
the entry loop, maxKey is assigned the address of the single range variable
k, so after the loop *maxKey is the key of the LAST iterated entry, whatever
entry won the comparison.  With empty storage maxKey is still nil at the
return *maxKey, a nil-pointer dereference, modelled as none. -/
def Counter.ArgMax (c : Counter) : Option (String × ℚ) :=
  match c.values.getLast? with
  | none => none
  | some last =>
      some (last.1,
        (c.values.foldl
          (fun s kv => if kv.2 > s.2 ∨ s.1 = false then (true, kv.2) else s)
          (false, c.Base)).2)

/-- func (c *Counter) Sum(): reduce seeded with Base, folding addition. -/
def Counter.Sum (c : Counter) : ℚ := c.reduce c.Base (fun x y => x + y)

/-- func (c *Counter) Normalize(): sum = reduce(0.0, +) over stored entries
(the base is excluded from the total), then Apply divides every value, the
base included, by that sum. -/
def Counter.Normalize (c : Counter) : Counter :=
  c.Apply (fun _ a => a / (c.reduce 0 (fun x y => x + y)))

end counter

open counter

-- Basic lemmas about the association-list model of the Go map.

theorem mapLookup_mapInsert_self (l : List (String × ℚ)) (k : String) (v : ℚ) :
    mapLookup (mapInsert l k v) k = some v := by
  induction l with
  | nil => simp [mapInsert, mapLookup]
  | cons h t ih =>
    obtain ⟨k0, v0⟩ := h
    by_cases hk : k0 = k
    · simp [mapInsert, hk, mapLookup]
    · simp [mapInsert, hk, mapLookup, ih]

theorem mapLookup_mapInsert_ne (l : List (String × ℚ)) (k k2 : String) (v : ℚ)
    (h : k2 ≠ k) : mapLookup (mapInsert l k v) k2 = mapLookup l k2 := by
  induction l with
  | nil => simp [mapInsert, mapLookup, Ne.symm h]
  | cons hd t ih =>
    obtain ⟨k0, v0⟩ := hd
    by_cases hk : k0 = k
    · subst hk
      have hne : ¬ k0 = k2 := fun hh => h hh.symm
      simp [mapInsert, mapLookup, hne]
    · by_cases hk2 : k0 = k2
      · simp [mapInsert, hk, mapLookup, hk2, h]
      · simp [mapInsert, hk, mapLookup, hk2, ih]

theorem mapLookup_mapDelete_ne (l : List (String × ℚ)) (k k2 : String)
    (h : k2 ≠ k) : mapLookup (mapDelete l k) k2 = mapLookup l k2 := by
  induction l with
  | nil => simp [mapDelete]
  | cons hd t ih =>
    obtain ⟨k0, v0⟩ := hd
    by_cases hk : k0 = k
    · subst hk
      have hne : ¬ k0 = k2 := fun hh => h hh.symm
      simp [mapDelete, mapLookup, hne]
    · by_cases hk2 : k0 = k2
      · simp [mapDelete, hk, mapLookup, hk2, h]
      · simp [mapDelete, hk, mapLookup, hk2, ih]

theorem mem_of_mapLookup (l : List (String × ℚ)) (k : String) (w : ℚ)
    (h : mapLookup l k = some w) : (k, w) ∈ l := by
  induction l with
  | nil => simp [mapLookup] at h
  | cons hd t ih =>
    obtain ⟨k0, v0⟩ := hd
    by_cases hk : k0 = k
    · subst hk
      simp [mapLookup] at h
      simp [h]
    · simp [mapLookup, hk] at h
      simp [ih h]

theorem mem_mapInsert (l : List (String × ℚ)) (k : String) (v : ℚ)
    (m : String × ℚ) (h : m ∈ mapInsert l k v) : m = (k, v) ∨ m ∈ l := by
  induction l with
  | nil => simp [mapInsert] at h; simp [h]
  | cons hd t ih =>
    obtain ⟨k0, v0⟩ := hd
    by_cases hk : k0 = k
    · subst hk
      simp [mapInsert] at h
      rcases h with h | h
      · exact Or.inl (by simp [h])
      · exact Or.inr (by simp [h])
    · simp [mapInsert, hk] at h
      rcases h with h | h
      · exact Or.inr (by simp [h])
      · rcases ih h with h2 | h2
        · exact Or.inl h2
        · exact Or.inr (by simp [h2])

theorem mapDelete_not_mem_keys (l : List (String × ℚ)) (k : String)
    (hnd : (l.map Prod.fst).Nodup) : ¬ k ∈ (mapDelete l k).map Prod.fst := by
  induction l with
  | nil => simp [mapDelete]
  | cons hd t ih =>
    obtain ⟨k0, v0⟩ := hd
    simp only [List.map_cons, List.nodup_cons] at hnd
    by_cases hk : k0 = k
    · subst hk
      simpa [mapDelete] using hnd.1
    · simp only [mapDelete, if_neg hk, List.map_cons, List.mem_cons]
      rintro (h | h)
      · exact hk h.symm
      · exact ih hnd.2 h

-- Lemmas about Counter.Get, Counter.Set and Counter.Keys.

theorem Set_Base (c : Counter) (k : String) (v : ℚ) : (c.Set k v).Base = c.Base := rfl

theorem Get_Set_self (c : Counter) (k : String) (v : ℚ) : (c.Set k v).Get k = v := by
  simp [Counter.Get, Counter.Set, mapLookup_mapInsert_self]

theorem Get_Set_ne (c : Counter) (k k2 : String) (v : ℚ) (h : k2 ≠ k) :
    (c.Set k v).Get k2 = c.Get k2 := by
  simp only [Counter.Get, Counter.Set]
  by_cases hb : v = c.Base
  · rw [if_pos hb, mapLookup_mapInsert_ne _ _ _ _ h, mapLookup_mapDelete_ne _ _ _ h]
  · rw [if_neg hb, mapLookup_mapInsert_ne _ _ _ _ h]

theorem mem_Keys (c : Counter) (k : String) :
    k ∈ c.Keys ↔ ∃ w, (k, w) ∈ c.values ∧ ¬ w = c.Base := by
  simp only [Counter.Keys, List.mem_map, List.mem_filter, decide_eq_true_eq]
  constructor
  · rintro ⟨⟨k0, w⟩, ⟨hm, hw⟩, hk⟩
    have hk2 : k0 = k := hk
    subst hk2
    exact ⟨w, hm, hw⟩
  · rintro ⟨w, hm, hw⟩
    exact ⟨(k, w), ⟨hm, hw⟩, rfl⟩

theorem Get_of_not_mem_Keys (c : Counter) (k : String) (h : ¬ k ∈ c.Keys) :
    c.Get k = c.Base := by
  rcases hl : mapLookup c.values k with _ | w
  · simp [Counter.Get, hl]
  · have hmem := mem_of_mapLookup _ _ _ hl
    by_cases hw : w = c.Base
    · simp [Counter.Get, hl, hw]
    · exact absurd ((mem_Keys c k).2 ⟨w, hmem, hw⟩) h

-- Lemmas about folds of Set over a key list (the shape of operate).

theorem foldSet_Base (ks : List String) (f : String → ℚ) (r0 : Counter) :
    (ks.foldl (fun r k => r.Set k (f k)) r0).Base = r0.Base := by
  induction ks generalizing r0 with
  | nil => rfl
  | cons k0 t ih => simp [List.foldl, ih, Set_Base]

theorem foldSet_Get (ks : List String) (f : String → ℚ) (r0 : Counter) (k : String) :
    (ks.foldl (fun r k2 => r.Set k2 (f k2)) r0).Get k =
      if k ∈ ks then f k else r0.Get k := by
  induction ks generalizing r0 with
  | nil => simp
  | cons k0 t ih =>
    simp only [List.foldl, ih]
    by_cases ht : k ∈ t
    · simp [ht, List.mem_cons]
    · by_cases hk0 : k = k0
      · subst hk0
        simp [ht, Get_Set_self]
      · simp [ht, hk0, Get_Set_ne _ _ _ _ hk0]

-- Lemmas about folds of Set over an entry list (the shape of Apply).

theorem foldPairSet_Base (l : List (String × ℚ)) (g : String × ℚ → ℚ) (r0 : Counter) :
    (l.foldl (fun r kv => r.Set kv.1 (g kv)) r0).Base = r0.Base := by
  induction l generalizing r0 with
  | nil => rfl
  | cons kv t ih => simp [List.foldl, ih, Set_Base]

theorem foldPairSet_Get_not_mem (l : List (String × ℚ)) (g : String × ℚ → ℚ)
    (r0 : Counter) (k : String) (h : ¬ k ∈ l.map Prod.fst) :
    (l.foldl (fun r kv => r.Set kv.1 (g kv)) r0).Get k = r0.Get k := by
  induction l generalizing r0 with
  | nil => rfl
  | cons kv t ih =>
    simp only [List.map_cons, List.mem_cons, not_or] at h
    simp only [List.foldl, ih _ h.2, Get_Set_ne _ _ _ _ h.1]

theorem foldPairSet_Get_mem (l : List (String × ℚ)) (g : String × ℚ → ℚ)
    (r0 : Counter) (k : String) (w : ℚ) (hnd : (l.map Prod.fst).Nodup)
    (hm : (k, w) ∈ l) :
    (l.foldl (fun r kv => r.Set kv.1 (g kv)) r0).Get k = g (k, w) := by
  induction l generalizing r0 with
  | nil => simp at hm
  | cons kv t ih =>
    simp only [List.map_cons, List.nodup_cons] at hnd
    rcases List.mem_cons.1 hm with h | h
    · subst h
      simp only [List.foldl]
      rw [foldPairSet_Get_not_mem _ _ _ _ hnd.1, Get_Set_self]
    · simp only [List.foldl]
      exact ih _ hnd.2 h

-- Lemmas about mergeKeys.

theorem mem_mergeKeys (a b : List String) (k : String) :
    k ∈ mergeKeys a b ↔ k ∈ a ∨ k ∈ b := by
  simp only [mergeKeys, List.mem_append, List.mem_filter, decide_eq_true_eq]
  constructor
  · rintro (h | ⟨h, _⟩)
    · exact Or.inl h
    · exact Or.inr h
  · rintro (h | h)
    · exact Or.inl h
    · by_cases ha : k ∈ a
      · exact Or.inl ha
      · exact Or.inr ⟨h, ha⟩

theorem mergeKeys_Nodup (a b : List String) (ha : a.Nodup) (hb : b.Nodup) :
    (mergeKeys a b).Nodup := by
  refine List.Nodup.append ha (hb.filter _) ?_
  intro x hxa hxf
  simp only [List.mem_filter, decide_eq_true_eq] at hxf
  exact hxf.2 hxa


-- Claim theorems.

/-- C1 (code bug witness): the spec requires that Set(k, v) with v equal to
Base removes k and does not store it, so that no stored value ever equals
Base.  The code deletes and then unconditionally stores anyway (the delete
has no early return), so after Set("a", 0) on New(0) the storage holds the
entry ("a", 0) whose value equals the base 0. -/
theorem C1_set_stores_base_valued_entry :
    ((New 0).Set "a" 0).values = [("a", 0)] ∧ ((New 0).Set "a" 0).Base = 0 :=
  ⟨by decide, rfl⟩

/-- C2 (code bug witness): in-place combine diverges from pure combine.
With a = New(1) (empty) and b = New(2) with y set to 5, the pure Add gives
result.Get(y) = 1 + 5 = 6, but the in-place Add first mutates a.Base to 3,
so inside its loop a.Get(y) already returns the combined base and y ends at
3 + 5 = 8.  The two final states differ at key y. -/
theorem C2_inplace_pure_divergence :
    (counter.Add (New 1) ((New 2).Set "y" 5)).Get "y" = 6 ∧
    (Counter.Add (New 1) ((New 2).Set "y" 5)).Get "y" = 8 := by
  constructor
  · simp only [counter.Add, operate, New, Counter.Keys, mergeKeys, Counter.Set,
      Counter.Get, mapLookup, mapInsert, mapDelete, List.filter, List.foldl,
      List.map, List.append_nil, List.nil_append]
    simp only [String.reduceEq, reduceIte]
    norm_num
    norm_num [mapInsert, mapLookup]
  · simp only [Counter.Add, Counter.operate, New, Counter.Keys, mergeKeys,
      Counter.Set, Counter.Get, mapLookup, mapInsert, mapDelete, List.filter,
      List.foldl, List.map, List.append_nil, List.nil_append]
    simp only [String.reduceEq, reduceIte]
    norm_num
    norm_num [mapInsert, mapLookup]

/-- C3 (code bug witness): ArgMax on storage x maps to 5, then y maps to 1
(an iteration order a Go map can produce) returns the pair (y, 5): the value
is the maximum, but the key is the key of the last iterated entry, because
maxKey holds the address of the single range loop variable.  The stored
value of the returned key y is 1, not the returned 5, contradicting the
claim that the returned key is one whose stored value equals the returned
maximal value. -/
theorem C3_argmax_returns_last_iterated_key :
    (((New 0).Set "x" 5).Set "y" 1).ArgMax = some ("y", 5) ∧
    (((New 0).Set "x" 5).Set "y" 1).Get "y" = 1 :=
  ⟨by decide, by decide⟩

/-- C4 (code bug witness): ArgMax on an empty counter reaches return *maxKey
with maxKey still nil — a nil-pointer dereference (runtime panic), modelled
as none — instead of signalling an explicit EmptyCounterError. -/
theorem C4_argmax_empty_nil_dereference : (New (0 : ℚ)).ArgMax = none := by
  decide

/-- C5: immediately after c.Set(k, v): if v = c.Base then k is not in
c.Keys() (the ghost entry is stored but Keys filters it out); otherwise k is
in c.Keys() and c.Get(k) = v.  WF is the Go-map representation invariant
(distinct stored keys). -/
theorem C5_set_then_keys_and_get (c : Counter) (k : String) (v : ℚ)
    (hwf : c.WF) :
    (v = c.Base → ¬ k ∈ (c.Set k v).Keys) ∧
    (v ≠ c.Base → k ∈ (c.Set k v).Keys ∧ (c.Set k v).Get k = v) := by
  constructor
  · intro hv hmem
    rw [mem_Keys] at hmem
    obtain ⟨w, hw_mem, hw_ne⟩ := hmem
    rw [Set_Base] at hw_ne
    simp only [Counter.Set, if_pos hv] at hw_mem
    rcases mem_mapInsert _ _ _ _ hw_mem with h | h
    · have : w = v := by simpa using congrArg Prod.snd h
      exact hw_ne (this.trans hv)
    · exact mapDelete_not_mem_keys c.values k hwf
        (List.mem_map.2 ⟨(k, w), h, rfl⟩)
  · intro hv
    refine ⟨?_, Get_Set_self c k v⟩
    rw [mem_Keys]
    refine ⟨v, ?_, by rw [Set_Base]; exact hv⟩
    simp only [Counter.Set]
    exact mem_of_mapLookup _ _ _ (mapLookup_mapInsert_self _ k v)

/-- C5 witness: the theorem applied to New(0), key a, value 0 and value
checks discharged concretely. -/
theorem C5_witness :
    ((0 : ℚ) = (New (0 : ℚ)).Base → ¬ "a" ∈ ((New (0 : ℚ)).Set "a" 0).Keys) ∧
    ((0 : ℚ) ≠ (New (0 : ℚ)).Base →
      "a" ∈ ((New (0 : ℚ)).Set "a" 0).Keys ∧
        ((New (0 : ℚ)).Set "a" 0).Get "a" = 0) :=
  C5_set_then_keys_and_get (New 0) "a" 0 (by simp [Counter.WF, New])

/-- C6: the pure combine has base op(a.Base, b.Base) and, for every key k,
Get k equal to op(a.Get k, b.Get k) — on merged keys because the loop Sets
exactly that value, and off merged keys because both sides fall back to
their bases.  a and b are only read (operate constructs a fresh counter from
New and never writes to its arguments, which the functional embedding makes
immediate).  Instantiating op with +, -, *, / gives the four operators. -/
theorem C6_pure_operate_spec (a b : Counter) (op : ℚ → ℚ → ℚ) :
    (operate a b op mergeKeys).Base = op a.Base b.Base ∧
    ∀ k, (operate a b op mergeKeys).Get k = op (a.Get k) (b.Get k) := by
  constructor
  · simp only [operate]
    rw [foldSet_Base]
    rfl
  · intro k
    simp only [operate]
    rw [foldSet_Get]
    by_cases hm : k ∈ mergeKeys a.Keys b.Keys
    · rw [if_pos hm]
    · rw [if_neg hm]
      rw [mem_mergeKeys] at hm
      push_neg at hm
      have hget : (New (op a.Base b.Base)).Get k = op a.Base b.Base := rfl
      rw [hget, Get_of_not_mem_Keys a k hm.1, Get_of_not_mem_Keys b k hm.2]

/-- C7 counterexample: the claim quantifies over every pair of key
sequences, but mergeKeys only records seen keys while draining the first
list, and emits the first list verbatim; a duplicate inside either input is
emitted twice, so the output is not duplicate-free. -/
theorem C7_counterexample :
    mergeKeys ["x", "x"] ["y", "y"] = ["x", "x", "y", "y"] ∧
    ¬ (mergeKeys ["x", "x"] ["y", "y"]).Nodup :=
  ⟨by decide, by decide⟩

/-- C7 amended: for duplicate-free inputs — which is what the binary
operations pass, since Keys() enumerates the keys of a map — mergeKeys
emits exactly the union with no key twice: all of the first list in order,
then the unseen keys of the second list in order. -/
theorem C7_merge_union_nodup (a b : List String) (ha : a.Nodup)
    (hb : b.Nodup) :
    (mergeKeys a b).Nodup ∧
    (∀ k, k ∈ mergeKeys a b ↔ k ∈ a ∨ k ∈ b) ∧
    mergeKeys a b = a ++ b.filter (fun k => ¬ k ∈ a) :=
  ⟨mergeKeys_Nodup a b ha hb, fun k => mem_mergeKeys a b k, rfl⟩

/-- C7 witness: the amended theorem evaluated on a = [x], b = [x, y]. -/
theorem C7_witness :
    (mergeKeys ["x"] ["x", "y"]).Nodup ∧
    ("y" ∈ mergeKeys ["x"] ["x", "y"] ↔ "y" ∈ ["x"] ∨ "y" ∈ ["x", "y"]) :=
  ⟨(C7_merge_union_nodup ["x"] ["x", "y"] (by decide) (by decide)).1,
   (C7_merge_union_nodup ["x"] ["x", "y"] (by decide) (by decide)).2.1 "y"⟩

/-- C8: Get returns the stored value when the key is present and Base when
it is absent; a key never touched by Set still reads Base (New gives Base
everywhere and Set leaves other keys unchanged).  Get is a pure total
function of the counter — it cannot mutate and cannot fail, which the
functional embedding makes immediate. -/
theorem C8_get_semantics (c : Counter) (k k2 : String) (v b : ℚ) :
    ((New b).Get k = b) ∧
    (mapLookup c.values k = none → c.Get k = c.Base) ∧
    (∀ w, mapLookup c.values k = some w → c.Get k = w) ∧
    (k2 ≠ k → (c.Set k v).Get k2 = c.Get k2) := by
  refine ⟨rfl, ?_, ?_, ?_⟩
  · intro h
    simp [Counter.Get, h]
  · intro w h
    simp [Counter.Get, h]
  · intro h
    exact Get_Set_ne c k k2 v h

/-- C8 witness: the theorem applied at New(5), keys x and y, value 3. -/
theorem C8_witness :
    ((New (5 : ℚ)).Get "x" = 5) ∧
    (((New (5 : ℚ)).Set "x" 3).Get "y" = (New (5 : ℚ)).Get "y") :=
  ⟨(C8_get_semantics (New 5) "x" "y" 3 5).1,
   (C8_get_semantics (New 5) "x" "y" 3 5).2.2.2 (by decide)⟩

/-- C9: Normalize computes the total as reduce(0, +) over the stored entries
only (Base excluded from the total), then divides the base and every stored
entry by that total; on base 0 with entries x maps to 1 and y maps to 3 the
result is x maps to 1/4, y maps to 3/4 with base 0. -/
theorem C9_normalize_spec (c : Counter) (hwf : c.WF) :
    ((c.Normalize).Base = c.Base / c.reduce 0 (fun x y => x + y)) ∧
    (∀ k w, mapLookup c.values k = some w →
      (c.Normalize).Get k = w / c.reduce 0 (fun x y => x + y)) ∧
    ((((New 0).Set "x" 1).Set "y" 3).Normalize).values =
      [("x", 1/4), ("y", 3/4)] ∧
    ((((New 0).Set "x" 1).Set "y" 3).Normalize).Base = 0 := by
  refine ⟨?_, ?_, ?_, ?_⟩
  · simp only [Counter.Normalize, Counter.Apply]
    rw [foldPairSet_Base]
  · intro k w hw
    have hmem := mem_of_mapLookup _ _ _ hw
    simp only [Counter.Normalize, Counter.Apply]
    rw [foldPairSet_Get_mem _ _ _ k w hwf hmem]
  · simp only [Counter.Normalize, Counter.Apply, Counter.reduce, New,
      Counter.Set, Counter.Get, mapLookup, mapInsert, mapDelete]
    simp only [String.reduceEq, reduceIte]
    norm_num
    simp only [mapInsert, String.reduceEq, reduceIte]
  · simp only [Counter.Normalize, Counter.Apply, Counter.reduce, New,
      Counter.Set, Counter.Get, mapLookup, mapInsert, mapDelete]
    simp only [String.reduceEq, reduceIte]
    norm_num

/-- C9 witness: the theorem applied at the example counter, reading key x. -/
theorem C9_witness :
    ((((New 0).Set "x" 1).Set "y" 3).Normalize).Get "x" =
      1 / (((New 0).Set "x" 1).Set "y" 3).reduce 0 (fun x y => x + y) :=
  (C9_normalize_spec (((New 0).Set "x" 1).Set "y" 3)
    (by unfold Counter.WF; decide)).2.1 "x" 1 (by decide)

/-- C10: Set(k, v) with v equal to the base still stores the entry (the
delete inside Set is dead code), and the stored base-valued entry is seen by
the reduce fold: on any counter the entry survives with value Base, and for
a fresh New(b) followed by Set(k, b), Sum returns b + b — the seed base plus
the stored base-valued entry — not b. -/
theorem C10_ghost_entry_in_sum (b : ℚ) (k : String) (c : Counter) :
    (mapLookup ((c.Set k c.Base).values) k = some c.Base) ∧
    ((New b).Set k b).values = [(k, b)] ∧
    ((New b).Set k b).Sum = b + b := by
  have hval : ((New b).Set k b).values = [(k, b)] := by
    simp [Counter.Set, New, mapDelete, mapInsert]
  refine ⟨?_, hval, ?_⟩
  · simp only [Counter.Set]
    exact mapLookup_mapInsert_self _ k c.Base
  · simp only [Counter.Sum, Counter.reduce, hval, Set_Base]
    simp [New, List.foldl]
